import Mathlib

/-
Shallow embedding of the generic C stack in src/stack.c / src/stack.h.

Modelling conventions:

* An element handle (a `void *` pointing at a live user element) is an
  `Elem α`: a heap address (`Nat`) together with the element's content
  (`α`).  Addresses let us speak about allocation freshness and sharing.
* A buffer slot (`void *` stored in `stack->data`) is a `Cell α`: either a
  live element pointer, the null pointer, or indeterminate contents
  (memory fresh from `malloc`/`realloc` is uninitialised, not null).
* The user-supplied `StackCopyFunc` is modelled by its contract
  (stack.h: "returns a pointer to a newly allocated copy of the
  element"): it yields a fresh address carrying the same content.  A
  global allocation counter `ctr : Nat` is threaded through every
  operation that calls it; addresses `< ctr` are the ones already
  handed out.  Calling it on a non-live pointer is undefined, modelled
  as an indeterminate resulting cell.
* The user-supplied `StackFreeFunc` is modelled by logging the sequence
  of arguments it is called with; `clear` returns that log.
* The user-supplied `StackCompareFunc` is the `cmp` field,
  `Option (α → α → Int)` since the C field may be NULL; `cmp a b = 0`
  means equal, as stack.h documents.  `contains` returns `Option Bool`:
  `none` models the crash of calling through a NULL function pointer or
  comparing a dead pointer.
* Every public operation that null-checks its `Stack *` argument in the
  C source takes an `Option (Stack α)` (`none` = NULL handle).
  `reverse` and `to_array` do not null-check in the source, so they
  take a plain `Stack α`.
* C `for` loops over indices `0 ≤ i < size` become structural recursion
  over `List.range size`, reading slots with `List.getD` (the default
  `Cell.uninit` models an out-of-bounds read, unreachable in
  well-formed states).
-/

namespace CStack

/-- A live element handle: heap address plus the element's content. -/
structure Elem (α : Type) where
  addr : Nat
  val : α
deriving DecidableEq

/-- One slot of the backing buffer: a live element pointer, the null
pointer, or indeterminate (uninitialised or garbage) contents. -/
inductive Cell (α : Type) where
  | live : Elem α → Cell α
  | null : Cell α
  | uninit : Cell α
deriving DecidableEq

/-- `#define STACK_INITIAL_CAPACITY 8` (stack.c line 19). -/
def STACK_INITIAL_CAPACITY : Nat := 8

/-- The `struct Stack` of stack.c lines 29-36.  `data` is the buffer
(its length is the allocated slot count), `size` and `capacity` the two
counters, `copyId`/`freeId` the identities of the user-supplied copy
and free function pointers (their call behaviour is modelled by
`copyCell` and the free log), and `cmp` the optional compare function. -/
structure Stack (α : Type) where
  data : List (Cell α)
  size : Nat
  capacity : Nat
  copyId : Nat
  freeId : Nat
  cmp : Option (α → α → Int)

/-- Calling the user copy function on a raw pointer: a live pointer
yields a freshly allocated handle with equal content (the contract in
stack.h); copying through a dead pointer has an indeterminate result
and allocates nothing observable. -/
def copyCell (ctr : Nat) : Cell α → Cell α × Nat
  | Cell.live e => (Cell.live ⟨ctr, e.val⟩, ctr + 1)
  | _ => (Cell.uninit, ctr)

/-- `grow` (stack.c lines 47-55): `new_capacity = capacity ? capacity * 2
: STACK_INITIAL_CAPACITY`, then `realloc`.  `realloc` preserves the
prefix of the old allocation and leaves the newly added slots
uninitialised. -/
def grow (s : Stack α) : Stack α :=
  let new_capacity := if s.capacity ≠ 0 then s.capacity * 2 else STACK_INITIAL_CAPACITY
  { s with
    data := (s.data ++ List.replicate (new_capacity - s.data.length) Cell.uninit).take new_capacity
    capacity := new_capacity }

/-- `new_stack` (stack.c lines 72-88): capacity `STACK_INITIAL_CAPACITY`,
a `malloc`ed (hence uninitialised) buffer of that many slots, size 0,
and the three user function pointers. -/
def new_stack (copy_func free_func : Nat) (cmp_func : Option (α → α → Int)) : Stack α :=
  { data := List.replicate STACK_INITIAL_CAPACITY Cell.uninit
    size := 0
    capacity := STACK_INITIAL_CAPACITY
    copyId := copy_func
    freeId := free_func
    cmp := cmp_func }

/-- `push` (stack.c lines 118-126): NULL handle is a no-op; grow when
`size == capacity`; store `copy(element)` at index `size`; increment
`size`. -/
def push (stack : Option (Stack α)) (element : Cell α) (ctr : Nat) :
    Option (Stack α) × Nat :=
  match stack with
  | none => (none, ctr)
  | some s =>
    let s1 := if s.size = s.capacity then grow s else s
    let r := copyCell ctr element
    (some { s1 with data := s1.data.set s1.size r.1, size := s1.size + 1 }, r.2)

/-- `pop` (stack.c lines 138-148): NULL handle or empty stack returns
NULL; otherwise decrement `size`, read the slot at the new `size`, null
the vacated slot, and return the element. -/
def pop (stack : Option (Stack α)) : Option (Stack α) × Cell α :=
  match stack with
  | none => (none, Cell.null)
  | some s =>
    if s.size = 0 then (some s, Cell.null)
    else
      let element := s.data.getD (s.size - 1) Cell.uninit
      (some { s with data := s.data.set (s.size - 1) Cell.null, size := s.size - 1 }, element)

/-- `peek` (stack.c lines 158-166): NULL handle or empty stack returns
NULL; otherwise return the slot at `size - 1` without mutating. -/
def peek (stack : Option (Stack α)) : Cell α :=
  match stack with
  | none => Cell.null
  | some s =>
    if s.size = 0 then Cell.null
    else s.data.getD (s.size - 1) Cell.uninit

/-- The arguments handed to `free_func` by the loop
`for (i = 0; i < n; ++i) free_func(data[i])`. -/
def freedArgs (data : List (Cell α)) : List Nat → List (Cell α)
  | [] => []
  | i :: rest => data.getD i Cell.uninit :: freedArgs data rest

/-- `clear` (stack.c lines 175-183): NULL handle is a no-op; otherwise
call `free_func` on each slot `data[i]`, `0 ≤ i < size`, in order, then
set `size = 0`.  Returns the updated stack and the log of arguments
passed to `free_func`. -/
def clear (stack : Option (Stack α)) : Option (Stack α) × List (Cell α) :=
  match stack with
  | none => (none, [])
  | some s => (some { s with size := 0 }, freedArgs s.data (List.range s.size))

/-- `is_empty` (stack.c lines 192-197): NULL handle counts as empty. -/
def is_empty (stack : Option (Stack α)) : Bool :=
  match stack with
  | none => true
  | some s => s.size == 0

/-- `size` (stack.c lines 206-211): NULL handle has size 0. -/
def size (stack : Option (Stack α)) : Nat :=
  match stack with
  | none => 0
  | some s => s.size

/-- `capacity` (stack.c lines 220-225): NULL handle has capacity 0. -/
def capacity (stack : Option (Stack α)) : Nat :=
  match stack with
  | none => 0
  | some s => s.capacity

/-- The loop of `contains`: scan indices in order; each step calls
`cmp(data[i], element)`.  Calling a NULL `cmp`, or comparing through a
dead pointer, crashes (`none`). -/
def containsLoop (cmp : Option (α → α → Int)) (data : List (Cell α)) (x : α) :
    List Nat → Option Bool
  | [] => some false
  | i :: rest =>
    match cmp, data.getD i Cell.uninit with
    | some f, Cell.live e =>
      if f e.val x = 0 then some true else containsLoop cmp data x rest
    | _, _ => none

/-- `contains` (stack.c lines 237-247): NULL handle returns false;
otherwise linear scan over indices `0 ≤ i < size`, true on the first
slot comparing equal to `element`. -/
def contains (stack : Option (Stack α)) (element : α) : Option Bool :=
  match stack with
  | none => some false
  | some s => containsLoop s.cmp s.data element (List.range s.size)

/-- The loop of `clone`: `push(clone, stack->data[i])` for each index. -/
def cloneLoop (data : List (Cell α)) :
    List Nat → Option (Stack α) → Nat → Option (Stack α) × Nat
  | [], c, ctr => (c, ctr)
  | i :: rest, c, ctr =>
    let r := push c (data.getD i Cell.uninit) ctr
    cloneLoop data rest r.1 r.2

/-- `clone` (stack.c lines 258-267): NULL handle returns NULL; otherwise
build `new_stack` with the same three function pointers and push every
slot `data[i]`, `0 ≤ i < size`, bottom to top. -/
def clone (stack : Option (Stack α)) (ctr : Nat) : Option (Stack α) × Nat :=
  match stack with
  | none => (none, ctr)
  | some s =>
    cloneLoop s.data (List.range s.size)
      (some (new_stack s.copyId s.freeId s.cmp)) ctr

/-- One swap `tmp = data[l]; data[l] = data[r]; data[r] = tmp`. -/
def swapCells (data : List (Cell α)) (left right : Nat) : List (Cell α) :=
  let tmp := data.getD left Cell.uninit
  (data.set left (data.getD right Cell.uninit)).set right tmp

/-- The two-pointer loop of `reverse`: swap while `left < right`. -/
def revLoop (data : List (Cell α)) (left right : Nat) : List (Cell α) :=
  if left < right then revLoop (swapCells data left right) (left + 1) (right - 1)
  else data
termination_by right - left
decreasing_by simp_wf; omega

/-- `reverse` (stack.c lines 274-287): no NULL-handle check in the
source; return immediately when `size == 0`, otherwise run the
two-pointer swap loop on `left = 0`, `right = size - 1`. -/
def reverse (s : Stack α) : Stack α :=
  if s.size = 0 then s
  else { s with data := revLoop s.data 0 (s.size - 1) }

/-- The loop of `to_array`: `array[i] = copy(data[i])` in index order,
threading the allocation counter. -/
def copyRange (data : List (Cell α)) : List Nat → Nat → List (Cell α) × Nat
  | [], ctr => ([], ctr)
  | i :: rest, ctr =>
    let r := copyCell ctr (data.getD i Cell.uninit)
    let rs := copyRange data rest r.2
    (r.1 :: rs.1, rs.2)

/-- `to_array` (stack.c lines 299-317): no NULL-handle check in the
source.  Empty stack: result NULL and, when an `out_size` pointer was
supplied (`wantSize`), 0 is written to it.  Otherwise a fresh array of
`copy(data[i])` for `0 ≤ i < size`, with `size` written to `out_size`
when supplied.  Returns (array or NULL, value written to `out_size`,
allocation counter). -/
def to_array (s : Stack α) (wantSize : Bool) (ctr : Nat) :
    Option (List (Cell α)) × Option Nat × Nat :=
  if s.size = 0 then
    (none, if wantSize then some 0 else none, ctr)
  else
    let r := copyRange s.data (List.range s.size) ctr
    (some r.1, if wantSize then some s.size else none, r.2)

/-- The live prefix of the buffer: slots `[0, size)`. -/
def liveCells (s : Stack α) : List (Cell α) := s.data.take s.size

/-- Content of a slot, if it holds a live element. -/
def cellVal : Cell α → Option α
  | Cell.live e => some e.val
  | _ => none

/-- Contents of the live prefix, bottom to top. -/
def liveVals (s : Stack α) : List α := (liveCells s).filterMap cellVal

/-- Addresses of the live pointers among a list of slots. -/
def cellAddrs : List (Cell α) → List Nat
  | [] => []
  | Cell.live e :: rest => e.addr :: cellAddrs rest
  | _ :: rest => cellAddrs rest

/-- Slot liveness bounded by the allocation counter. -/
def cellLiveBelow (ctr : Nat) : Cell α → Bool
  | Cell.live e => e.addr < ctr
  | _ => false

/-- Well-formedness of a stack state relative to the allocation counter
`ctr`: the buffer has exactly `capacity` slots, `size ≤ capacity`,
every slot of the live prefix holds a live element at an
already-allocated address, and no two live slots alias. -/
def WF (s : Stack α) (ctr : Nat) : Prop :=
  s.data.length = s.capacity ∧ s.size ≤ s.capacity ∧
  (liveCells s).all (cellLiveBelow ctr) = true ∧
  (cellAddrs (liveCells s)).Nodup

/-- Driver: push a sequence of caller-owned elements (the input address
is irrelevant, `copy` reads only the content). -/
def pushVals (stack : Option (Stack α)) (vals : List α) (ctr : Nat) :
    Option (Stack α) × Nat :=
  match vals with
  | [] => (stack, ctr)
  | v :: rest =>
    let r := push stack (Cell.live ⟨0, v⟩) ctr
    pushVals r.1 rest r.2

/-- Driver: pop `n` times, collecting the returned pointers in order. -/
def popN (stack : Option (Stack α)) : Nat → Option (Stack α) × List (Cell α)
  | 0 => (stack, [])
  | n + 1 =>
    let r := pop stack
    let rs := popN r.1 n
    (rs.1, r.2 :: rs.2)

/-! ### Generic list helpers -/

theorem getD_take_of_lt {β : Type} {l : List β} {m n : Nat} (h : n < m) (d : β) :
    (l.take m).getD n d = l.getD n d := by
  rw [List.getD_eq_getElem?_getD, List.getD_eq_getElem?_getD, List.getElem?_take, if_pos h]

theorem take_succ_getD {β : Type} {l : List β} {n : Nat} (h : n < l.length) (d : β) :
    l.take (n + 1) = l.take n ++ [l.getD n d] := by
  rw [List.take_succ, List.getD_eq_getElem?_getD, List.getElem?_eq_getElem h]
  rfl

theorem take_set_of_le {β : Type} (a : β) :
    ∀ (l : List β) (n m : Nat), m ≤ n → (l.set n a).take m = l.take m
  | [], _, _, _ => by simp
  | _ :: _, _ + 1, 0, _ => by simp
  | x :: xs, n + 1, m + 1, h => by
    rw [List.set_cons_succ]
    simp only [List.take_succ_cons]
    rw [take_set_of_le a xs n m (Nat.succ_le_succ_iff.mp h)]
  | _ :: _, 0, m, h => by
    rw [Nat.le_zero.mp h]
    simp

theorem getD_set_self {β : Type} {l : List β} {n : Nat} (h : n < l.length) (a d : β) :
    (l.set n a).getD n d = a := by
  rw [List.getD_eq_getElem?_getD, List.getElem?_set_self h]
  rfl

theorem getD_set_ne {β : Type} {l : List β} {n m : Nat} (h : n ≠ m) (a d : β) :
    (l.set n a).getD m d = l.getD m d := by
  rw [List.getD_eq_getElem?_getD, List.getElem?_set_ne h, List.getD_eq_getElem?_getD]

theorem take_take_of_le {β : Type} {m n : Nat} (h : m ≤ n) (l : List β) :
    (l.take n).take m = l.take m := by
  rw [List.take_take, Nat.min_eq_left h]

theorem take_append_left {β : Type} {l₁ l₂ : List β} {n : Nat} (h : n ≤ l₁.length) :
    (l₁ ++ l₂).take n = l₁.take n :=
  List.take_append_of_le_length h

/-! ### Helpers about `cellAddrs`, `cellVal`, `cellLiveBelow` -/

theorem cellAddrs_append (l₁ l₂ : List (Cell α)) :
    cellAddrs (l₁ ++ l₂) = cellAddrs l₁ ++ cellAddrs l₂ := by
  induction l₁ with
  | nil => rfl
  | cons c rest ih => cases c <;> simp [cellAddrs, ih]

theorem mem_cellAddrs_lt {l : List (Cell α)} {ctr : Nat}
    (h : l.all (cellLiveBelow ctr) = true) {a : Nat} (ha : a ∈ cellAddrs l) :
    a < ctr := by
  induction l with
  | nil => simp [cellAddrs] at ha
  | cons c rest ih =>
    rw [List.all_cons, Bool.and_eq_true] at h
    cases c with
    | live e =>
      have h1 := h.1
      simp only [cellLiveBelow, decide_eq_true_eq] at h1
      simp only [cellAddrs] at ha
      rcases List.mem_cons.mp ha with h2 | h2
      · rw [h2]
        exact h1
      · exact ih h.2 h2
    | null => simpa [cellLiveBelow] using h.1
    | uninit => simpa [cellLiveBelow] using h.1

theorem cellLiveBelow_mono {ctr ctr' : Nat} (h : ctr ≤ ctr') {l : List (Cell α)}
    (hl : l.all (cellLiveBelow ctr) = true) : l.all (cellLiveBelow ctr') = true := by
  rw [List.all_eq_true] at hl ⊢
  intro c hc
  have hc2 := hl c hc
  cases c with
  | live e =>
    simp only [cellLiveBelow, decide_eq_true_eq] at hc2 ⊢
    omega
  | null => simp [cellLiveBelow] at hc2
  | uninit => simp [cellLiveBelow] at hc2

theorem all_take {β : Type} {p : β → Bool} {l : List β} (h : l.all p = true) (n : Nat) :
    (l.take n).all p = true := by
  rw [List.all_eq_true] at h ⊢
  exact fun x hx => h x (List.mem_of_mem_take hx)

theorem nodup_cellAddrs_take {l : List (Cell α)} (h : (cellAddrs l).Nodup) (n : Nat) :
    (cellAddrs (l.take n)).Nodup := by
  have hsplit : cellAddrs (l.take n) ++ cellAddrs (l.drop n) = cellAddrs l := by
    rw [← cellAddrs_append, List.take_append_drop]
  rw [← hsplit] at h
  exact (List.nodup_append.mp h).1

/-! ### `grow` characterization -/

theorem grow_capacity (s : Stack α) :
    (grow s).capacity = if s.capacity ≠ 0 then s.capacity * 2 else STACK_INITIAL_CAPACITY := rfl

theorem grow_capacity_le (s : Stack α) : s.capacity ≤ (grow s).capacity := by
  rw [grow_capacity]
  by_cases h : s.capacity = 0
  · rw [if_neg (by simp [h]), h]
    exact Nat.zero_le _
  · rw [if_pos h]
    omega

theorem grow_size (s : Stack α) : (grow s).size = s.size := rfl

theorem grow_cmp (s : Stack α) : (grow s).cmp = s.cmp := rfl

theorem grow_copyId (s : Stack α) : (grow s).copyId = s.copyId := rfl

theorem grow_freeId (s : Stack α) : (grow s).freeId = s.freeId := rfl

theorem grow_length (s : Stack α) (h : s.data.length = s.capacity) :
    (grow s).data.length = (grow s).capacity := by
  have hle : s.capacity ≤ (grow s).capacity := grow_capacity_le s
  rw [grow_capacity] at hle
  simp only [grow, List.length_take, List.length_append, List.length_replicate]
  omega

theorem grow_take (s : Stack α) {k : Nat} (hk : k ≤ s.data.length)
    (h : s.data.length = s.capacity) : (grow s).data.take k = s.data.take k := by
  have hle : s.capacity ≤ (grow s).capacity := grow_capacity_le s
  rw [grow_capacity] at hle
  simp only [grow]
  rw [take_take_of_le (by omega), take_append_left hk]

theorem grow_getD (s : Stack α) {i : Nat} (hi : i < s.data.length)
    (h : s.data.length = s.capacity) (d : Cell α) :
    (grow s).data.getD i d = s.data.getD i d := by
  have h1 := grow_take s (Nat.le_refl s.data.length) h
  have h2 := @getD_take_of_lt (Cell α) (grow s).data s.data.length i hi d
  have h3 := @getD_take_of_lt (Cell α) s.data s.data.length i hi d
  rw [← h2, ← h3, h1]

theorem grow_liveCells (s : Stack α) (hsz : s.size ≤ s.data.length)
    (h : s.data.length = s.capacity) : liveCells (grow s) = liveCells s := by
  show (grow s).data.take (grow s).size = s.data.take s.size
  rw [grow_size, grow_take s hsz h]

/-! ### `push` characterization -/

/-- The result stack of a successful `push` on a non-NULL handle. -/
def pushResult (s : Stack α) (element : Cell α) (ctr : Nat) : Stack α :=
  let s1 := if s.size = s.capacity then grow s else s
  { s1 with data := s1.data.set s1.size (copyCell ctr element).1, size := s1.size + 1 }

theorem push_some (s : Stack α) (element : Cell α) (ctr : Nat) :
    push (some s) element ctr = (some (pushResult s element ctr), (copyCell ctr element).2) := by
  rfl

theorem copyCell_live (e : Elem α) (ctr : Nat) :
    copyCell ctr (Cell.live e) = (Cell.live ⟨ctr, e.val⟩, ctr + 1) := rfl

theorem pushResult_size (s : Stack α) (element : Cell α) (ctr : Nat) :
    (pushResult s element ctr).size = s.size + 1 := by
  show (if s.size = s.capacity then grow s else s).size + 1 = s.size + 1
  split <;> rfl

theorem pushResult_capacity (s : Stack α) (element : Cell α) (ctr : Nat) :
    (pushResult s element ctr).capacity =
      if s.size = s.capacity then
        (if s.capacity ≠ 0 then s.capacity * 2 else STACK_INITIAL_CAPACITY)
      else s.capacity := by
  show (if s.size = s.capacity then grow s else s).capacity = _
  split <;> rfl

theorem pushResult_cmp (s : Stack α) (element : Cell α) (ctr : Nat) :
    (pushResult s element ctr).cmp = s.cmp := by
  show (if s.size = s.capacity then grow s else s).cmp = s.cmp
  split <;> rfl

theorem pushResult_copyId (s : Stack α) (element : Cell α) (ctr : Nat) :
    (pushResult s element ctr).copyId = s.copyId := by
  show (if s.size = s.capacity then grow s else s).copyId = s.copyId
  split <;> rfl

theorem pushResult_freeId (s : Stack α) (element : Cell α) (ctr : Nat) :
    (pushResult s element ctr).freeId = s.freeId := by
  show (if s.size = s.capacity then grow s else s).freeId = s.freeId
  split <;> rfl

theorem pushResult_capacity_le (s : Stack α) (element : Cell α) (ctr : Nat) :
    s.capacity ≤ (pushResult s element ctr).capacity := by
  rw [pushResult_capacity]
  by_cases h : s.size = s.capacity
  · rw [if_pos h]
    by_cases h2 : s.capacity = 0
    · rw [if_neg (by simp [h2]), h2]
      exact Nat.zero_le _
    · rw [if_pos h2]
      omega
  · rw [if_neg h]

/-- After the conditional growth inside `push`, the write index `size`
is strictly inside the buffer. -/
theorem push_size_lt (s : Stack α) (hlen : s.data.length = s.capacity)
    (hsz : s.size ≤ s.capacity) :
    s.size < (if s.size = s.capacity then grow s else s).data.length := by
  by_cases h : s.size = s.capacity
  · rw [if_pos h, grow_length s hlen, grow_capacity]
    by_cases h2 : s.capacity = 0
    · rw [if_neg (by simp [h2]), h, h2]
      simp [STACK_INITIAL_CAPACITY]
    · rw [if_pos h2]
      omega
  · rw [if_neg h]
    omega

theorem pushResult_length (s : Stack α) (element : Cell α) (ctr : Nat)
    (hlen : s.data.length = s.capacity) :
    (pushResult s element ctr).data.length = (pushResult s element ctr).capacity := by
  show ((if s.size = s.capacity then grow s else s).data.set _ _).length =
    (if s.size = s.capacity then grow s else s).capacity
  rw [List.length_set]
  split
  · exact grow_length s hlen
  · exact hlen

theorem pushResult_liveCells (s : Stack α) (element : Cell α) (ctr : Nat)
    (hlen : s.data.length = s.capacity) (hsz : s.size ≤ s.capacity) :
    liveCells (pushResult s element ctr) = liveCells s ++ [(copyCell ctr element).1] := by
  have hlt := push_size_lt s hlen hsz
  have hsize : (if s.size = s.capacity then grow s else s).size = s.size := by
    by_cases h : s.size = s.capacity
    · rw [if_pos h, grow_size]
    · rw [if_neg h]
  have httake : (if s.size = s.capacity then grow s else s).data.take s.size = liveCells s := by
    by_cases h : s.size = s.capacity
    · rw [if_pos h]
      exact grow_take s (by omega) hlen
    · rw [if_neg h]
      rfl
  show ((if s.size = s.capacity then grow s else s).data.set
      (if s.size = s.capacity then grow s else s).size (copyCell ctr element).1).take
      ((if s.size = s.capacity then grow s else s).size + 1) = _
  rw [hsize]
  rw [take_succ_getD (by rw [List.length_set]; exact hlt) Cell.uninit]
  rw [getD_set_self hlt, take_set_of_le _ _ _ _ (Nat.le_refl _), httake]

theorem wf_pushResult {s : Stack α} {ctr : Nat} (hwf : WF s ctr) (e : Elem α) :
    WF (pushResult s (Cell.live e) ctr) (ctr + 1) := by
  obtain ⟨hlen, hsz, hall, hnd⟩ := hwf
  refine ⟨pushResult_length s _ ctr hlen, ?_, ?_, ?_⟩
  · rw [pushResult_size, pushResult_capacity]
    have hlt := push_size_lt s hlen hsz
    by_cases h : s.size = s.capacity
    · rw [if_pos h] at hlt ⊢
      rw [grow_length s hlen, grow_capacity] at hlt
      omega
    · rw [if_neg h] at hlt ⊢
      omega
  · rw [pushResult_liveCells s _ ctr hlen hsz, List.all_append]
    rw [cellLiveBelow_mono (Nat.le_succ ctr) hall]
    simp [copyCell_live, cellLiveBelow]
  · rw [pushResult_liveCells s _ ctr hlen hsz, copyCell_live, cellAddrs_append]
    rw [List.nodup_append]
    refine ⟨hnd, List.nodup_singleton _, ?_⟩
    intro a ha hmem
    have : a < ctr := mem_cellAddrs_lt hall ha
    have : a = ctr := by
      change a ∈ cellAddrs [Cell.live ⟨ctr, e.val⟩] at hmem
      simpa [cellAddrs] using hmem
    omega

/-! ### `pop` characterization -/

/-- The result stack of a `pop` on a non-NULL, non-empty handle. -/
def popResult (s : Stack α) : Stack α :=
  { s with data := s.data.set (s.size - 1) Cell.null, size := s.size - 1 }

theorem pop_some_zero {s : Stack α} (h : s.size = 0) :
    pop (some s) = (some s, Cell.null) := by
  simp [pop, h]

theorem pop_some_pos {s : Stack α} (h : s.size ≠ 0) :
    pop (some s) = (some (popResult s), s.data.getD (s.size - 1) Cell.uninit) := by
  simp [pop, h, popResult]

theorem popResult_size (s : Stack α) : (popResult s).size = s.size - 1 := rfl

theorem popResult_capacity (s : Stack α) : (popResult s).capacity = s.capacity := rfl

theorem popResult_cmp (s : Stack α) : (popResult s).cmp = s.cmp := rfl

theorem popResult_length (s : Stack α) : (popResult s).data.length = s.data.length :=
  List.length_set s.data _ _

theorem popResult_liveCells (s : Stack α) :
    liveCells (popResult s) = s.data.take (s.size - 1) := by
  show (s.data.set (s.size - 1) Cell.null).take (s.size - 1) = _
  exact take_set_of_le _ _ _ _ (Nat.le_refl _)

theorem liveCells_eq_take_pred_append {s : Stack α} (h : s.size ≠ 0)
    (hsz : s.size ≤ s.data.length) :
    liveCells s = s.data.take (s.size - 1) ++ [s.data.getD (s.size - 1) Cell.uninit] := by
  show s.data.take s.size = _
  have h1 : s.size - 1 + 1 = s.size := Nat.succ_pred_eq_of_pos (Nat.pos_of_ne_zero h)
  rw [← h1, take_succ_getD (by omega) Cell.uninit, Nat.add_sub_cancel]

theorem wf_popResult {s : Stack α} {ctr : Nat} (hwf : WF s ctr) : WF (popResult s) ctr := by
  obtain ⟨hlen, hsz, hall, hnd⟩ := hwf
  have hpref : liveCells (popResult s) = (liveCells s).take (s.size - 1) := by
    rw [popResult_liveCells]
    exact (take_take_of_le (by omega) s.data).symm
  refine ⟨by rw [popResult_length, hlen]; rfl,
    by rw [popResult_size, popResult_capacity]; omega, ?_, ?_⟩
  · rw [hpref]
    exact all_take hall _
  · rw [hpref]
    exact nodup_cellAddrs_take hnd _

/-! ### `new_stack` characterization -/

theorem new_stack_size (cid fid : Nat) (cf : Option (α → α → Int)) :
    (new_stack cid fid cf : Stack α).size = 0 := rfl

theorem new_stack_capacity (cid fid : Nat) (cf : Option (α → α → Int)) :
    (new_stack cid fid cf : Stack α).capacity = STACK_INITIAL_CAPACITY := rfl

theorem liveCells_new_stack (cid fid : Nat) (cf : Option (α → α → Int)) :
    liveCells (new_stack cid fid cf : Stack α) = [] := rfl

theorem wf_new_stack (cid fid : Nat) (cf : Option (α → α → Int)) (ctr : Nat) :
    WF (new_stack cid fid cf : Stack α) ctr :=
  ⟨by simp [new_stack], by simp [new_stack], rfl, List.nodup_nil⟩

/-! ### `pushVals` and `popN` characterizations -/

theorem pushVals_spec :
    ∀ (vs : List α) (s : Stack α) (ctr : Nat), WF s ctr →
    ∃ t, pushVals (some s) vs ctr = (some t, ctr + vs.length) ∧
      WF t (ctr + vs.length) ∧
      (liveCells t).map cellVal = (liveCells s).map cellVal ++ vs.map some ∧
      t.size = s.size + vs.length ∧ t.cmp = s.cmp ∧ t.copyId = s.copyId ∧
      t.freeId = s.freeId ∧ s.capacity ≤ t.capacity ∧
      (∀ a ∈ cellAddrs (liveCells t), a ∈ cellAddrs (liveCells s) ∨ ctr ≤ a)
  | [], s, ctr, hwf => ⟨s, by simp [pushVals], by simpa using hwf, by simp, by simp, rfl, rfl,
      rfl, Nat.le_refl _, fun a ha => Or.inl ha⟩
  | v :: rest, s, ctr, hwf => by
    have hlen := hwf.1
    have hsz := hwf.2.1
    have hwfP := wf_pushResult hwf ⟨0, v⟩
    obtain ⟨t, ht, htwf, htmap, htsz, htcmp, htcopy, htfree, htcap, htaddr⟩ :=
      pushVals_spec rest (pushResult s (Cell.live ⟨0, v⟩) ctr) (ctr + 1) hwfP
    refine ⟨t, ?_, ?_, ?_, ?_, ?_, ?_, ?_, ?_, ?_⟩
    · show pushVals (push (some s) (Cell.live ⟨0, v⟩) ctr).1 rest
        (push (some s) (Cell.live ⟨0, v⟩) ctr).2 = _
      simp only [push_some, copyCell_live, List.length_cons]
      rw [show ctr + (rest.length + 1) = ctr + 1 + rest.length from by omega]
      exact ht
    · simp only [List.length_cons]
      rw [show ctr + (rest.length + 1) = ctr + 1 + rest.length from by omega]
      exact htwf
    · rw [htmap, pushResult_liveCells s _ ctr hlen hsz, copyCell_live, List.map_append]
      simp [cellVal]
    · rw [htsz, pushResult_size]
      simp only [List.length_cons]
      omega
    · rw [htcmp, pushResult_cmp]
    · rw [htcopy, pushResult_copyId]
    · rw [htfree, pushResult_freeId]
    · exact Nat.le_trans (pushResult_capacity_le s _ ctr) htcap
    · intro a ha
      rcases htaddr a ha with h1 | h1
      · rw [pushResult_liveCells s _ ctr hlen hsz, copyCell_live, cellAddrs_append] at h1
        rcases List.mem_append.mp h1 with h2 | h2
        · exact Or.inl h2
        · right
          have : a = ctr := by simpa [cellAddrs] using h2
          omega
      · right
        omega

theorem popN_spec :
    ∀ (n : Nat) (s : Stack α) (ctr : Nat), WF s ctr → s.size = n →
    ∃ t, popN (some s) n = (some t, (liveCells s).reverse) ∧
      t.size = 0 ∧ t.capacity = s.capacity ∧ WF t ctr
  | 0, s, ctr, hwf, h0 => by
    refine ⟨s, ?_, h0, rfl, hwf⟩
    show (some s, []) = _
    simp [liveCells, h0]
  | n + 1, s, ctr, hwf, hsz => by
    have hne : s.size ≠ 0 := by omega
    have hlen := hwf.1
    have hle := hwf.2.1
    have hdecomp := liveCells_eq_take_pred_append hne (by omega)
    have hwf2 := wf_popResult hwf
    have hsz2 : (popResult s).size = n := by simp [popResult_size, hsz]
    obtain ⟨t, ht, ht0, htc, htwf⟩ := popN_spec n (popResult s) ctr hwf2 hsz2
    refine ⟨t, ?_, ht0, by rw [htc, popResult_capacity], htwf⟩
    show ((popN (pop (some s)).1 n).1, (pop (some s)).2 :: (popN (pop (some s)).1 n).2) = _
    rw [pop_some_pos hne, ht, hdecomp, popResult_liveCells, List.reverse_append]
    rfl

/-- Claim C1.  For every sequence of elements `e1..en` pushed in order
onto a freshly constructed stack, `n` successive pops return live
copies carrying those contents in reverse order `en..e1`; afterwards
the stack has size 0, `is_empty` is true, and a further `pop` returns
NULL. -/
theorem claim_C1 (vs : List α) (cid fid ctr : Nat) (cf : Option (α → α → Int)) :
    ((popN (pushVals (some (new_stack cid fid cf)) vs ctr).1 vs.length).2.map cellVal
        = (vs.map some).reverse) ∧
    size (popN (pushVals (some (new_stack cid fid cf)) vs ctr).1 vs.length).1 = 0 ∧
    is_empty (popN (pushVals (some (new_stack cid fid cf)) vs ctr).1 vs.length).1 = true ∧
    (pop (popN (pushVals (some (new_stack cid fid cf)) vs ctr).1 vs.length).1).2 = Cell.null := by
  obtain ⟨t, ht, htwf, htmap, htsz, -, -, -, -, -⟩ :=
    pushVals_spec vs (new_stack cid fid cf) ctr (wf_new_stack cid fid cf ctr)
  rw [liveCells_new_stack] at htmap
  rw [new_stack_size] at htsz
  obtain ⟨u, hu, hu0, -, -⟩ := popN_spec vs.length t (ctr + vs.length) htwf (by omega)
  rw [ht]
  simp only [hu]
  refine ⟨?_, ?_, ?_, ?_⟩
  · rw [List.map_reverse, htmap]
    simp
  · exact hu0
  · simp [is_empty, hu0]
  · rw [pop_some_zero hu0]

/-! ### Observers and small helpers for the remaining claims -/

/-- The live slots of a possibly-NULL handle (empty for NULL). -/
def stackCells (stack : Option (Stack α)) : List (Cell α) :=
  match stack with
  | none => []
  | some s => liveCells s

theorem capacity_pop_fst (s : Stack α) : capacity (pop (some s)).1 = s.capacity := by
  by_cases h : s.size = 0
  · rw [pop_some_zero h]
    rfl
  · rw [pop_some_pos h]
    rfl

theorem reverse_capacity (s : Stack α) : (reverse s).capacity = s.capacity := by
  by_cases h : s.size = 0
  · rw [reverse, if_pos h]
  · rw [reverse, if_neg h]

theorem reverse_size (s : Stack α) : (reverse s).size = s.size := by
  by_cases h : s.size = 0
  · rw [reverse, if_pos h]
  · rw [reverse, if_neg h]

theorem freedArgs_append (data : List (Cell α)) (l₁ l₂ : List Nat) :
    freedArgs data (l₁ ++ l₂) = freedArgs data l₁ ++ freedArgs data l₂ := by
  induction l₁ with
  | nil => rfl
  | cons i rest ih => simp [freedArgs, ih]

theorem freedArgs_range :
    ∀ (n : Nat) (data : List (Cell α)), n ≤ data.length →
      freedArgs data (List.range n) = data.take n
  | 0, data, _ => by simp [freedArgs]
  | n + 1, data, h => by
    rw [List.range_succ, freedArgs_append, freedArgs_range n data (by omega),
      take_succ_getD (by omega) Cell.uninit]
    rfl

theorem clear_some (s : Stack α) :
    clear (some s) = (some { s with size := 0 }, freedArgs s.data (List.range s.size)) := rfl

theorem stack_eta_size_zero {s : Stack α} (h : s.size = 0) :
    ({ s with size := 0 } : Stack α) = s := by
  cases s
  simp_all

/-- Claim C2.  `push` grows exactly when `size == capacity`; the new
capacity doubles the old one (8 when the old one is 0); growth and the
push itself leave every previously pushed element at its original
index; `pop`, `clear` and `reverse` never change the capacity; and in
particular pushing `STACK_INITIAL_CAPACITY + 1 = 9` elements onto a new
stack keeps all 9 contents in order and ends with capacity 16, at
least double the previous capacity 8. -/
theorem claim_C2 (s : Stack α) (c : Cell α) (ctr : Nat)
    (hlen : s.data.length = s.capacity) (hsz : s.size ≤ s.capacity) :
    (capacity (push (some s) c ctr).1 =
      if s.size = s.capacity then (if s.capacity = 0 then 8 else s.capacity * 2)
      else s.capacity) ∧
    (∀ i, i < s.size →
      (pushResult s c ctr).data.getD i Cell.uninit = s.data.getD i Cell.uninit) ∧
    s.capacity ≤ capacity (push (some s) c ctr).1 ∧
    capacity (pop (some s)).1 = s.capacity ∧
    capacity (clear (some s)).1 = s.capacity ∧
    (reverse s).capacity = s.capacity ∧
    (stackCells (pushVals (some (new_stack 0 0 none : Stack Nat)) (List.range 9) 0).1).map
      cellVal = (List.range 9).map some ∧
    capacity (pushVals (some (new_stack 0 0 none : Stack Nat)) (List.range 9) 0).1 = 16 ∧
    STACK_INITIAL_CAPACITY * 2 ≤ 16 := by
  refine ⟨?_, ?_, ?_, capacity_pop_fst s, rfl, reverse_capacity s, ?_, ?_, ?_⟩
  · rw [push_some]
    show (pushResult s c ctr).capacity = _
    rw [pushResult_capacity, STACK_INITIAL_CAPACITY]
    by_cases h : s.capacity = 0
    · simp [h]
    · simp [h]
  · intro i hi
    have hlt := push_size_lt s hlen hsz
    have hsize : (if s.size = s.capacity then grow s else s).size = s.size := by
      by_cases h : s.size = s.capacity
      · rw [if_pos h, grow_size]
      · rw [if_neg h]
    show ((if s.size = s.capacity then grow s else s).data.set
        (if s.size = s.capacity then grow s else s).size (copyCell ctr c).1).getD i
        Cell.uninit = _
    rw [hsize, getD_set_ne (by omega) _ _]
    by_cases h : s.size = s.capacity
    · rw [if_pos h]
      exact grow_getD s (by omega) hlen Cell.uninit
    · rw [if_neg h]
  · rw [push_some]
    exact pushResult_capacity_le s c ctr
  · decide
  · decide
  · decide

/-- Witness for C2 at a concrete stack (a fresh `Stack Nat`). -/
theorem claim_C2_witness :
    ((new_stack 0 0 none : Stack Nat).data.length = (new_stack 0 0 none : Stack Nat).capacity) ∧
    ((new_stack 0 0 none : Stack Nat).size ≤ (new_stack 0 0 none : Stack Nat).capacity) ∧
    (capacity (push (some (new_stack 0 0 none : Stack Nat)) Cell.null 0).1 =
      if (new_stack 0 0 none : Stack Nat).size = (new_stack 0 0 none : Stack Nat).capacity
      then (if (new_stack 0 0 none : Stack Nat).capacity = 0 then 8
        else (new_stack 0 0 none : Stack Nat).capacity * 2)
      else (new_stack 0 0 none : Stack Nat).capacity) :=
  ⟨by decide, by decide,
    (claim_C2 (new_stack 0 0 none : Stack Nat) Cell.null 0 (by decide) (by decide)).1⟩

/-- Claim C7.  `clear` hands `release_fn` exactly the live slots, in
index order and (in a well-formed stack) each exactly once; it zeroes
`size`, keeps `capacity`; on an empty stack it is a no-op, and clearing
twice is the same as clearing once. -/
theorem claim_C7 {s : Stack α} {ctr : Nat} (hwf : WF s ctr) :
    (clear (some s)).2 = liveCells s ∧
    (cellAddrs (clear (some s)).2).Nodup ∧
    size (clear (some s)).1 = 0 ∧
    capacity (clear (some s)).1 = s.capacity ∧
    (s.size = 0 → clear (some s) = (some s, [])) ∧
    clear (clear (some s)).1 = ((clear (some s)).1, []) := by
  have hlen := hwf.1
  have hsz := hwf.2.1
  have hlog : (clear (some s)).2 = liveCells s := by
    rw [clear_some]
    exact freedArgs_range s.size s.data (by omega)
  refine ⟨hlog, ?_, rfl, rfl, ?_, rfl⟩
  · rw [hlog]
    exact hwf.2.2.2
  · intro h0
    rw [clear_some, stack_eta_size_zero h0, h0]
    rfl

/-- Witness for C7 at a concrete well-formed stack. -/
theorem claim_C7_witness :
    WF (new_stack 0 0 none : Stack Nat) 0 ∧
    (clear (some (new_stack 0 0 none : Stack Nat))).2 =
      liveCells (new_stack 0 0 none : Stack Nat) :=
  ⟨wf_new_stack 0 0 none 0, (claim_C7 (wf_new_stack 0 0 none 0)).1⟩

/-- Claim C8.  On an empty (non-NULL) stack, `pop` and `peek` return
NULL as an ordinary return value and leave the stack — in particular
its size and capacity — unchanged. -/
theorem claim_C8 (s : Stack α) (h : s.size = 0) :
    pop (some s) = (some s, Cell.null) ∧
    peek (some s) = Cell.null ∧
    size (pop (some s)).1 = s.size ∧
    capacity (pop (some s)).1 = s.capacity := by
  refine ⟨pop_some_zero h, ?_, ?_, ?_⟩
  · simp [peek, h]
  · rw [pop_some_zero h]
    rfl
  · rw [pop_some_zero h]
    rfl

/-- Witness for C8: a freshly constructed stack is empty. -/
theorem claim_C8_witness :
    (new_stack 0 0 none : Stack Nat).size = 0 ∧
    pop (some (new_stack 0 0 none : Stack Nat)) =
      (some (new_stack 0 0 none : Stack Nat), Cell.null) :=
  ⟨by decide, (claim_C8 (new_stack 0 0 none : Stack Nat) (by decide)).1⟩

/-- Claim C10.  Every operation that null-checks its handle in the
source is safe on a NULL handle and returns the empty-stack answer:
`push` and `clear` do nothing, `pop`, `peek` and `clone` return NULL,
`is_empty` is true, `size` and `capacity` are 0, `contains` is false. -/
theorem claim_C10 (c : Cell α) (x : α) (ctr : Nat) :
    push (none : Option (Stack α)) c ctr = (none, ctr) ∧
    pop (none : Option (Stack α)) = (none, Cell.null) ∧
    peek (none : Option (Stack α)) = Cell.null ∧
    clear (none : Option (Stack α)) = (none, []) ∧
    is_empty (none : Option (Stack α)) = true ∧
    size (none : Option (Stack α)) = 0 ∧
    capacity (none : Option (Stack α)) = 0 ∧
    contains (none : Option (Stack α)) x = some false ∧
    clone (none : Option (Stack α)) ctr = (none, ctr) :=
  ⟨rfl, rfl, rfl, rfl, rfl, rfl, rfl, rfl, rfl⟩

/-! ### Liveness without a counter bound -/

/-- Whether a slot holds a live element pointer. -/
def cellIsLive : Cell α → Bool
  | Cell.live _ => true
  | _ => false

theorem all_isLive_of_below {l : List (Cell α)} {ctr : Nat}
    (h : l.all (cellLiveBelow ctr) = true) : l.all cellIsLive = true := by
  rw [List.all_eq_true] at h ⊢
  intro c hc
  have := h c hc
  cases c with
  | live e => rfl
  | null => simp [cellLiveBelow] at this
  | uninit => simp [cellLiveBelow] at this

theorem isLive_elim {c : Cell α} (h : cellIsLive c = true) : ∃ e : Elem α, c = Cell.live e := by
  cases c with
  | live e => exact ⟨e, rfl⟩
  | null => simp [cellIsLive] at h
  | uninit => simp [cellIsLive] at h

/-! ### `contains` characterization -/

theorem containsLoop_shift (cmp : Option (α → α → Int)) (x : α) (d : Cell α)
    (data : List (Cell α)) :
    ∀ idx : List Nat,
      containsLoop cmp (d :: data) x (idx.map Nat.succ) = containsLoop cmp data x idx
  | [] => rfl
  | i :: rest => by
    simp only [List.map_cons, containsLoop, List.getD_cons_succ]
    cases cmp with
    | none => rfl
    | some f =>
      cases data.getD i Cell.uninit with
      | live e =>
        by_cases hfe : f e.val x = 0
        · simp [hfe]
        · simp only [if_neg hfe]
          exact containsLoop_shift (some f) x d data rest
      | null => rfl
      | uninit => rfl

theorem containsLoop_spec :
    ∀ (data : List (Cell α)) (n : Nat) (f : α → α → Int) (x : α),
      n ≤ data.length → (data.take n).all cellIsLive = true →
      containsLoop (some f) data x (List.range n) =
        some (((data.take n).filterMap cellVal).any (fun v => decide (f v x = 0)))
  | _, 0, _, _, _, _ => by simp [containsLoop]
  | [], n + 1, f, x, hn, _ => by simp at hn
  | c :: rest, m + 1, f, x, hn, hlive => by
    rw [List.take_succ_cons, List.all_cons, Bool.and_eq_true] at hlive
    obtain ⟨e, he⟩ := isLive_elim hlive.1
    subst he
    rw [List.range_succ_eq_map]
    simp only [containsLoop, List.getD_cons_zero, List.take_succ_cons, List.filterMap_cons,
      cellVal]
    by_cases hfe : f e.val x = 0
    · simp [hfe]
    · rw [if_neg hfe, containsLoop_shift (some f) x (Cell.live e) rest (List.range m),
        containsLoop_spec rest m f x (by simpa using hn) hlive.2]
      simp [hfe]

/-- Claim C5.  On a stack with a non-NULL `compare_fn` the `contains`
scan succeeds and answers true exactly when some live element compares
equal (compare result 0) to the probe; on an empty stack it answers
false for every probe (this needs no compare function, the loop body
never runs). -/
theorem claim_C5 {s : Stack α} {ctr : Nat} (hwf : WF s ctr) {f : α → α → Int}
    (hf : s.cmp = some f) (x : α) :
    (contains (some s) x = some ((liveVals s).any (fun v => decide (f v x = 0)))) ∧
    (contains (some s) x = some true ↔ ∃ v ∈ liveVals s, f v x = 0) ∧
    (s.size = 0 → ∀ y : α, contains (some s) y = some false) := by
  have hlen := hwf.1
  have hsz := hwf.2.1
  have hlive : (s.data.take s.size).all cellIsLive = true :=
    all_isLive_of_below hwf.2.2.1
  have hc : contains (some s) x =
      some (((s.data.take s.size).filterMap cellVal).any (fun v => decide (f v x = 0))) := by
    show containsLoop s.cmp s.data x (List.range s.size) = _
    rw [hf]
    exact containsLoop_spec s.data s.size f x (by omega) hlive
  refine ⟨hc, ?_, ?_⟩
  · rw [hc]
    simp only [Option.some_inj, List.any_eq_true, decide_eq_true_eq]
    constructor
    · rintro ⟨v, hv, hv0⟩
      exact ⟨v, hv, hv0⟩
    · rintro ⟨v, hv, hv0⟩
      exact ⟨v, hv, hv0⟩
  · intro h0 y
    show containsLoop s.cmp s.data y (List.range s.size) = some false
    rw [h0]
    rfl

/-- Witness for C5: a fresh stack whose compare function is literally
supplied. -/
theorem claim_C5_witness :
    WF (new_stack 0 0 (some (fun a b : Nat => (a : Int) - (b : Int))) : Stack Nat) 0 ∧
    (new_stack 0 0 (some (fun a b : Nat => (a : Int) - (b : Int))) : Stack Nat).cmp =
      some (fun a b : Nat => (a : Int) - (b : Int)) ∧
    (contains (some (new_stack 0 0 (some (fun a b : Nat => (a : Int) - (b : Int))) : Stack Nat))
        3 = some true ↔
      ∃ v ∈ liveVals (new_stack 0 0 (some (fun a b : Nat => (a : Int) - (b : Int))) : Stack Nat),
        (fun a b : Nat => (a : Int) - (b : Int)) v 3 = 0) :=
  ⟨wf_new_stack 0 0 _ 0, rfl,
    (claim_C5 (wf_new_stack 0 0 (some (fun a b : Nat => (a : Int) - (b : Int))) 0) rfl 3).2.1⟩

/-! ### `to_array` characterization -/

theorem copyRange_shift (d : Cell α) (data : List (Cell α)) :
    ∀ (idx : List Nat) (ctr : Nat),
      copyRange (d :: data) (idx.map Nat.succ) ctr = copyRange data idx ctr
  | [], _ => rfl
  | i :: rest, ctr => by
    simp only [List.map_cons, copyRange, List.getD_cons_succ]
    rw [copyRange_shift d data rest]

theorem copyRange_spec :
    ∀ (data : List (Cell α)) (n ctr : Nat),
      n ≤ data.length → (data.take n).all cellIsLive = true →
      ((copyRange data (List.range n) ctr).1.map cellVal = (data.take n).map cellVal) ∧
      ((copyRange data (List.range n) ctr).2 = ctr + n) ∧
      ((copyRange data (List.range n) ctr).1.length = n) ∧
      (∀ a ∈ cellAddrs (copyRange data (List.range n) ctr).1, ctr ≤ a ∧ a < ctr + n)
  | _, 0, ctr, _, _ => by simp [copyRange, cellAddrs]
  | [], n + 1, ctr, hn, _ => by simp at hn
  | c :: rest, m + 1, ctr, hn, hlive => by
    rw [List.take_succ_cons, List.all_cons, Bool.and_eq_true] at hlive
    obtain ⟨e, he⟩ := isLive_elim hlive.1
    subst he
    rw [List.range_succ_eq_map]
    simp only [copyRange, List.getD_cons_zero, copyCell_live]
    rw [copyRange_shift (Cell.live e) rest (List.range m) (ctr + 1)]
    obtain ⟨ih1, ih2, ih3, ih4⟩ :=
      copyRange_spec rest m (ctr + 1) (by simpa using hn) hlive.2
    refine ⟨?_, ?_, ?_, ?_⟩
    · simp only [List.map_cons, List.take_succ_cons]
      rw [ih1]
      rfl
    · rw [ih2]
      omega
    · simp only [List.length_cons]
      rw [ih3]
    · intro a ha
      simp only [cellAddrs] at ha
      rcases List.mem_cons.mp ha with h1 | h1
      · omega
      · have := ih4 a h1
        omega

/-- Claim C6.  `to_array` on a well-formed stack returns a fresh array
of exactly `size` entries whose `i`-th entry is a copy (same content,
fresh address) of the element at index `i`, bottom to top; the stack
itself is passed read-only and is not part of the result.  On an empty
stack it returns NULL and writes 0 through `out_size` when that pointer
is supplied. -/
theorem claim_C6 {s : Stack α} {ctr : Nat} (hwf : WF s ctr) (w : Bool) :
    (s.size ≠ 0 → ((to_array s w ctr).1.isSome = true)) ∧
    ((to_array s w ctr).1.getD []).map cellVal = (liveCells s).map cellVal ∧
    ((to_array s w ctr).1.getD []).length = s.size ∧
    (∀ a ∈ cellAddrs ((to_array s w ctr).1.getD []), ctr ≤ a) ∧
    (to_array s w ctr).2.1 = (if w then some s.size else none) ∧
    (s.size = 0 → to_array s w ctr = (none, (if w then some 0 else none), ctr)) := by
  have hlen := hwf.1
  have hsz := hwf.2.1
  have hlive : (s.data.take s.size).all cellIsLive = true :=
    all_isLive_of_below hwf.2.2.1
  by_cases h0 : s.size = 0
  · rw [to_array, if_pos h0]
    refine ⟨fun h => absurd h0 h, ?_, ?_, ?_, ?_, fun _ => rfl⟩
    · show ([] : List (Cell α)).map cellVal = (s.data.take s.size).map cellVal
      rw [h0]
      rfl
    · show ([] : List (Cell α)).length = s.size
      rw [h0]
      rfl
    · intro a ha
      simp [cellAddrs] at ha
    · rw [h0]
  · obtain ⟨h1, h2, h3, h4⟩ := copyRange_spec s.data s.size ctr (by omega) hlive
    rw [to_array, if_neg h0]
    exact ⟨fun _ => rfl, h1, h3, fun a ha => (h4 a ha).1, rfl, fun h => absurd h h0⟩

/-- Witness for C6 at a concrete one-element stack. -/
theorem claim_C6_witness :
    WF (pushResult (new_stack 0 0 none : Stack Nat) (Cell.live ⟨0, 7⟩) 0) 1 ∧
    ((to_array (pushResult (new_stack 0 0 none : Stack Nat) (Cell.live ⟨0, 7⟩) 0) true 1).1.getD
        []).map cellVal =
      (liveCells (pushResult (new_stack 0 0 none : Stack Nat) (Cell.live ⟨0, 7⟩) 0)).map
        cellVal :=
  ⟨wf_pushResult (wf_new_stack 0 0 none 0) ⟨0, 7⟩,
    (claim_C6 (wf_pushResult (wf_new_stack 0 0 none 0) ⟨0, 7⟩) true).2.1⟩

/-! ### `clone` characterization -/

theorem filterMap_cellVal_length :
    ∀ l : List (Cell α), l.all cellIsLive = true → (l.filterMap cellVal).length = l.length
  | [], _ => rfl
  | c :: rest, h => by
    rw [List.all_cons, Bool.and_eq_true] at h
    obtain ⟨e, he⟩ := isLive_elim h.1
    subst he
    simp only [List.filterMap_cons, cellVal, List.length_cons]
    rw [filterMap_cellVal_length rest h.2]

theorem liveVals_length {s : Stack α} {ctr : Nat} (hwf : WF s ctr) :
    (liveVals s).length = s.size := by
  have h1 := filterMap_cellVal_length (liveCells s) (all_isLive_of_below hwf.2.2.1)
  have hlen := hwf.1
  have hsz := hwf.2.1
  rw [liveVals, h1]
  show (s.data.take s.size).length = s.size
  rw [List.length_take]
  omega

theorem filterMap_of_map_some :
    ∀ (l : List (Cell α)) (vs : List α),
      l.map cellVal = vs.map some → l.filterMap cellVal = vs
  | [], vs, h => by
    cases vs with
    | nil => rfl
    | cons v vt => simp at h
  | c :: rest, vs, h => by
    cases vs with
    | nil => simp at h
    | cons v vt =>
      simp only [List.map_cons, List.cons.injEq] at h
      simp only [List.filterMap_cons, h.1]
      rw [filterMap_of_map_some rest vt h.2]

theorem map_cellVal_eq :
    ∀ l : List (Cell α), l.all cellIsLive = true →
      l.map cellVal = (l.filterMap cellVal).map some
  | [], _ => rfl
  | c :: rest, h => by
    rw [List.all_cons, Bool.and_eq_true] at h
    obtain ⟨e, he⟩ := isLive_elim h.1
    subst he
    simp only [List.map_cons, List.filterMap_cons, cellVal]
    rw [map_cellVal_eq rest h.2]

/-- The array produced by `to_array` carries exactly the live contents,
bottom to top. -/
theorem to_array_vals {s : Stack α} {ctr : Nat} (hwf : WF s ctr) (w : Bool) :
    ((to_array s w ctr).1.getD []).map cellVal = (liveCells s).map cellVal := by
  have hlen := hwf.1
  have hsz := hwf.2.1
  have hlive : (s.data.take s.size).all cellIsLive = true := all_isLive_of_below hwf.2.2.1
  by_cases h0 : s.size = 0
  · rw [to_array, if_pos h0]
    show ([] : List (Cell α)).map cellVal = (s.data.take s.size).map cellVal
    rw [h0]
    rfl
  · rw [to_array, if_neg h0]
    exact (copyRange_spec s.data s.size ctr (by omega) hlive).1

/-- The user copy function reads only the content of the element it is
handed, so `push` does not depend on the input handle's address. -/
theorem push_content_only (t : Option (Stack α)) (e : Elem α) (ctr : Nat) :
    push t (Cell.live e) ctr = push t (Cell.live ⟨0, e.val⟩) ctr := by
  cases t with
  | none => rfl
  | some s => rfl

theorem cloneLoop_shift (d : Cell α) (data : List (Cell α)) :
    ∀ (idx : List Nat) (t : Option (Stack α)) (ctr : Nat),
      cloneLoop (d :: data) (idx.map Nat.succ) t ctr = cloneLoop data idx t ctr
  | [], _, _ => rfl
  | i :: rest, t, ctr => by
    simp only [List.map_cons, cloneLoop, List.getD_cons_succ]
    rw [cloneLoop_shift d data rest]

theorem cloneLoop_eq_pushVals :
    ∀ (data : List (Cell α)) (n : Nat) (t : Option (Stack α)) (ctr : Nat),
      n ≤ data.length → (data.take n).all cellIsLive = true →
      cloneLoop data (List.range n) t ctr =
        pushVals t ((data.take n).filterMap cellVal) ctr
  | _, 0, t, ctr, _, _ => by simp [cloneLoop, pushVals]
  | [], n + 1, t, ctr, hn, _ => by simp at hn
  | c :: rest, m + 1, t, ctr, hn, hlive => by
    rw [List.take_succ_cons, List.all_cons, Bool.and_eq_true] at hlive
    obtain ⟨e, he⟩ := isLive_elim hlive.1
    subst he
    rw [List.range_succ_eq_map]
    simp only [cloneLoop, List.getD_cons_zero, List.take_succ_cons, List.filterMap_cons,
      cellVal, pushVals]
    rw [cloneLoop_shift (Cell.live e) rest (List.range m), push_content_only]
    exact cloneLoop_eq_pushVals rest m _ _ (by simpa using hn) hlive.2

/-- Claim C3.  `clone` on a well-formed stack yields a new stack with
the same three operation functions whose live slots hold copies of the
original's elements, bottom to top: same contents in the same order
(hence equal `to_array` images element-wise), but at entirely fresh
addresses, so no element storage is shared with the original — mutating
one can never change the other. -/
theorem claim_C3 {s : Stack α} {ctr : Nat} (hwf : WF s ctr) :
    ∃ c : Stack α,
      clone (some s) ctr = (some c, ctr + s.size) ∧
      c.cmp = s.cmp ∧ c.copyId = s.copyId ∧ c.freeId = s.freeId ∧
      c.size = s.size ∧
      liveVals c = liveVals s ∧
      ((to_array c true (ctr + s.size)).1.getD []).map cellVal =
        ((to_array s true ctr).1.getD []).map cellVal ∧
      (∀ a ∈ cellAddrs (liveCells c), a ∉ cellAddrs (liveCells s)) ∧
      WF c (ctr + s.size) := by
  have hlen := hwf.1
  have hsz := hwf.2.1
  have hlive : (s.data.take s.size).all cellIsLive = true := all_isLive_of_below hwf.2.2.1
  obtain ⟨t, ht, htwf, htmap, htsz, htcmp, htcopy, htfree, -, htaddr⟩ :=
    pushVals_spec (liveVals s) (new_stack s.copyId s.freeId s.cmp) ctr
      (wf_new_stack s.copyId s.freeId s.cmp ctr)
  have hlv := liveVals_length hwf
  have hclone : clone (some s) ctr = (some t, ctr + s.size) := by
    show cloneLoop s.data (List.range s.size) (some (new_stack s.copyId s.freeId s.cmp)) ctr =
      (some t, ctr + s.size)
    rw [cloneLoop_eq_pushVals s.data s.size _ ctr (by omega) hlive]
    show pushVals (some (new_stack s.copyId s.freeId s.cmp)) (liveVals s) ctr = _
    rw [ht, hlv]
  simp only [liveCells_new_stack, List.map_nil, List.nil_append] at htmap
  rw [liveCells_new_stack] at htaddr
  rw [hlv] at htwf
  refine ⟨t, hclone, htcmp, htcopy, htfree, by rw [htsz, new_stack_size, hlv]; omega, ?_, ?_,
    ?_, htwf⟩
  · exact filterMap_of_map_some (liveCells t) (liveVals s) htmap
  · rw [to_array_vals htwf true, to_array_vals hwf true, htmap,
      map_cellVal_eq (liveCells s) hlive]
    rfl
  · intro a ha hmem
    rcases htaddr a ha with h1 | h1
    · simp [cellAddrs] at h1
    · have := mem_cellAddrs_lt hwf.2.2.1 hmem
      omega

/-- Witness for C3 at a concrete one-element stack. -/
theorem claim_C3_witness :
    WF (pushResult (new_stack 0 0 none : Stack Nat) (Cell.live ⟨0, 7⟩) 0) 1 ∧
    ∃ c : Stack Nat,
      clone (some (pushResult (new_stack 0 0 none : Stack Nat) (Cell.live ⟨0, 7⟩) 0)) 1 =
        (some c, 1 + (pushResult (new_stack 0 0 none : Stack Nat) (Cell.live ⟨0, 7⟩) 0).size) ∧
      c.cmp = (pushResult (new_stack 0 0 none : Stack Nat) (Cell.live ⟨0, 7⟩) 0).cmp ∧
      c.copyId = (pushResult (new_stack 0 0 none : Stack Nat) (Cell.live ⟨0, 7⟩) 0).copyId ∧
      c.freeId = (pushResult (new_stack 0 0 none : Stack Nat) (Cell.live ⟨0, 7⟩) 0).freeId ∧
      c.size = (pushResult (new_stack 0 0 none : Stack Nat) (Cell.live ⟨0, 7⟩) 0).size ∧
      liveVals c = liveVals (pushResult (new_stack 0 0 none : Stack Nat) (Cell.live ⟨0, 7⟩) 0) ∧
      ((to_array c true
          (1 + (pushResult (new_stack 0 0 none : Stack Nat) (Cell.live ⟨0, 7⟩) 0).size)).1.getD
          []).map cellVal =
        ((to_array (pushResult (new_stack 0 0 none : Stack Nat) (Cell.live ⟨0, 7⟩) 0) true
          1).1.getD []).map cellVal ∧
      (∀ a ∈ cellAddrs (liveCells c),
        a ∉ cellAddrs
          (liveCells (pushResult (new_stack 0 0 none : Stack Nat) (Cell.live ⟨0, 7⟩) 0))) ∧
      WF c (1 + (pushResult (new_stack 0 0 none : Stack Nat) (Cell.live ⟨0, 7⟩) 0).size) :=
  ⟨wf_pushResult (wf_new_stack 0 0 none 0) ⟨0, 7⟩,
    claim_C3 (wf_pushResult (wf_new_stack 0 0 none 0) ⟨0, 7⟩)⟩

/-! ### `reverse` characterization -/

theorem getD_middle {β : Type} :
    ∀ (ys : List β) (y : β) (post : List β) (d : β),
      (ys ++ y :: post).getD ys.length d = y
  | [], _, _, _ => rfl
  | z :: zs, y, post, d => by
    simp only [List.cons_append, List.length_cons, List.getD_cons_succ]
    exact getD_middle zs y post d

theorem set_middle {β : Type} :
    ∀ (ys : List β) (y : β) (post : List β) (x : β),
      (ys ++ y :: post).set ys.length x = ys ++ x :: post
  | [], _, _, _ => rfl
  | z :: zs, y, post, x => by
    simp only [List.cons_append, List.length_cons, List.set_cons_succ]
    rw [set_middle zs y post x]

theorem swapCells_cons (d : Cell α) (l : List (Cell α)) (i j : Nat) :
    swapCells (d :: l) (i + 1) (j + 1) = d :: swapCells l i j := by
  simp [swapCells, List.getD_cons_succ, List.set_cons_succ]

theorem swapCells_zero (x y : Cell α) (ys post : List (Cell α)) :
    swapCells (x :: (ys ++ y :: post)) 0 (ys.length + 1) = y :: (ys ++ x :: post) := by
  simp only [swapCells, List.getD_cons_zero, List.getD_cons_succ, getD_middle,
    List.set_cons_zero, List.set_cons_succ, set_middle]

theorem swapCells_spec :
    ∀ (pre : List (Cell α)) (x : Cell α) (ys : List (Cell α)) (y : Cell α)
      (post : List (Cell α)),
      swapCells (pre ++ (x :: (ys ++ y :: post))) pre.length (pre.length + ys.length + 1) =
        pre ++ (y :: (ys ++ x :: post))
  | [], x, ys, y, post => by
    simpa using swapCells_zero x y ys post
  | p :: pre, x, ys, y, post => by
    simp only [List.cons_append, List.length_cons]
    rw [show pre.length + 1 + ys.length + 1 = (pre.length + ys.length + 1) + 1 from by omega,
      swapCells_cons, swapCells_spec pre x ys y post]

theorem revLoop_segment :
    ∀ (n : Nat) (mid : List (Cell α)), mid.length = n →
      ∀ (pre post : List (Cell α)),
        revLoop (pre ++ mid ++ post) pre.length (pre.length + mid.length - 1) =
          pre ++ mid.reverse ++ post
  | 0, mid, hm, pre, post => by
    obtain rfl := List.length_eq_zero.mp hm
    rw [revLoop, if_neg (by omega)]
    simp
  | 1, mid, hm, pre, post => by
    obtain ⟨x, rfl⟩ : ∃ x, mid = [x] := by
      cases mid with
      | nil => simp at hm
      | cons a t =>
        cases t with
        | nil => exact ⟨a, rfl⟩
        | cons b t2 => simp at hm
    rw [revLoop, if_neg (by simp)]
    simp
  | n + 2, mid, hm, pre, post => by
    obtain ⟨x, tail, rfl⟩ : ∃ x tail, mid = x :: tail := by
      cases mid with
      | nil => simp at hm
      | cons a t => exact ⟨a, t, rfl⟩
    rcases List.eq_nil_or_concat tail with h | ⟨ys, y, rfl⟩
    · subst h
      simp at hm
    simp only [List.concat_eq_append] at hm ⊢
    have hys : ys.length = n := by
      simp only [List.length_cons, List.length_append, List.length_nil] at hm
      omega
    have hih := revLoop_segment n ys hys (pre ++ [y]) (x :: post)
    simp only [List.length_append, List.length_cons, List.length_nil, Nat.zero_add] at hih
    rw [hm, revLoop, if_pos (by omega),
      show pre.length + (n + 2) - 1 = pre.length + ys.length + 1 from by omega,
      show pre ++ (x :: (ys ++ [y])) ++ post = pre ++ (x :: (ys ++ y :: post)) from by simp,
      swapCells_spec pre x ys y post,
      show pre ++ (y :: (ys ++ x :: post)) = (pre ++ [y]) ++ ys ++ (x :: post) from by simp,
      show pre.length + ys.length + 1 - 1 = pre.length + 1 + ys.length - 1 from by omega,
      hih]
    simp

theorem reverse_data {s : Stack α} (hsz : s.size ≤ s.data.length) (h0 : s.size ≠ 0) :
    (reverse s).data = (s.data.take s.size).reverse ++ s.data.drop s.size := by
  have hlen : (s.data.take s.size).length = s.size := by
    rw [List.length_take]
    omega
  have hseg := revLoop_segment s.size (s.data.take s.size) hlen [] (s.data.drop s.size)
  simp only [List.length_nil, List.nil_append, Nat.zero_add, hlen, List.take_append_drop]
    at hseg
  rw [reverse, if_neg h0]
  exact hseg

theorem reverse_cmp (s : Stack α) : (reverse s).cmp = s.cmp := by
  by_cases h : s.size = 0
  · rw [reverse, if_pos h]
  · rw [reverse, if_neg h]

theorem reverse_copyId (s : Stack α) : (reverse s).copyId = s.copyId := by
  by_cases h : s.size = 0
  · rw [reverse, if_pos h]
  · rw [reverse, if_neg h]

theorem reverse_freeId (s : Stack α) : (reverse s).freeId = s.freeId := by
  by_cases h : s.size = 0
  · rw [reverse, if_pos h]
  · rw [reverse, if_neg h]

theorem stack_eq_of_fields {s t : Stack α} (hd : s.data = t.data) (hs : s.size = t.size)
    (hc : s.capacity = t.capacity) (hci : s.copyId = t.copyId) (hfi : s.freeId = t.freeId)
    (hcm : s.cmp = t.cmp) : s = t := by
  cases s
  cases t
  simp_all

theorem reverse_length {s : Stack α} (hsz : s.size ≤ s.data.length) :
    (reverse s).data.length = s.data.length := by
  by_cases h0 : s.size = 0
  · rw [reverse, if_pos h0]
  · rw [reverse_data hsz h0]
    simp only [List.length_append, List.length_reverse, List.length_take, List.length_drop]
    omega

theorem take_len_append {β : Type} {A : List β} {n : Nat} (h : A.length = n) (B : List β) :
    (A ++ B).take n = A := by
  rw [← h]
  exact List.take_left A B

theorem drop_len_append {β : Type} {A : List β} {n : Nat} (h : A.length = n) (B : List β) :
    (A ++ B).drop n = B := by
  rw [← h]
  exact List.drop_left A B

theorem reverse_liveCells {s : Stack α} (hsz : s.size ≤ s.data.length) :
    liveCells (reverse s) = (liveCells s).reverse := by
  by_cases h0 : s.size = 0
  · rw [reverse, if_pos h0]
    show s.data.take s.size = (s.data.take s.size).reverse
    rw [h0]
    rfl
  · have hA : ((s.data.take s.size).reverse).length = s.size := by
      rw [List.length_reverse, List.length_take]
      omega
    show (reverse s).data.take (reverse s).size = _
    rw [reverse_size, reverse_data hsz h0, take_len_append hA]
    rfl

theorem reverse_drop {s : Stack α} (hsz : s.size ≤ s.data.length) :
    (reverse s).data.drop s.size = s.data.drop s.size := by
  by_cases h0 : s.size = 0
  · rw [reverse, if_pos h0]
  · have hA : ((s.data.take s.size).reverse).length = s.size := by
      rw [List.length_reverse, List.length_take]
      omega
    rw [reverse_data hsz h0, drop_len_append hA]

/-- Claim C4.  `reverse` only permutes the live range `[0, size)` of
the buffer in place — it reverses the live slots, leaves every slot at
index `≥ size` exactly as it was, and changes no other field (size,
capacity, buffer length, operation functions); it is a no-op on an
empty stack; and reversing twice restores the stack exactly. -/
theorem claim_C4 (s : Stack α) (hsz : s.size ≤ s.data.length) :
    (reverse s).size = s.size ∧
    (reverse s).capacity = s.capacity ∧
    (reverse s).data.length = s.data.length ∧
    liveCells (reverse s) = (liveCells s).reverse ∧
    (reverse s).data.drop s.size = s.data.drop s.size ∧
    (s.size = 0 → reverse s = s) ∧
    reverse (reverse s) = s := by
  refine ⟨reverse_size s, reverse_capacity s, reverse_length hsz, reverse_liveCells hsz,
    reverse_drop hsz, fun h0 => by rw [reverse, if_pos h0], ?_⟩
  by_cases h0 : s.size = 0
  · have hr : reverse s = s := by rw [reverse, if_pos h0]
    rw [hr, hr]
  · have h0r : (reverse s).size ≠ 0 := by rw [reverse_size]; exact h0
    have hszr : (reverse s).size ≤ (reverse s).data.length := by
      rw [reverse_size, reverse_length hsz]
      exact hsz
    have hdd : (reverse (reverse s)).data = s.data := by
      rw [reverse_data hszr h0r, reverse_size]
      have h1 : (reverse s).data.take s.size = (liveCells s).reverse := by
        rw [← reverse_size s]
        exact reverse_liveCells hsz
      rw [h1, reverse_drop hsz, List.reverse_reverse]
      exact List.take_append_drop s.size s.data
    exact stack_eq_of_fields hdd
      (by rw [reverse_size, reverse_size]) (by rw [reverse_capacity, reverse_capacity])
      (by rw [reverse_copyId, reverse_copyId]) (by rw [reverse_freeId, reverse_freeId])
      (by rw [reverse_cmp, reverse_cmp])

/-- Witness for C4 at a concrete two-element stack. -/
theorem claim_C4_witness :
    ((pushResult (pushResult (new_stack 0 0 none : Stack Nat) (Cell.live ⟨0, 1⟩) 0)
        (Cell.live ⟨0, 2⟩) 1).size ≤
      (pushResult (pushResult (new_stack 0 0 none : Stack Nat) (Cell.live ⟨0, 1⟩) 0)
        (Cell.live ⟨0, 2⟩) 1).data.length) ∧
    reverse (reverse (pushResult (pushResult (new_stack 0 0 none : Stack Nat)
        (Cell.live ⟨0, 1⟩) 0) (Cell.live ⟨0, 2⟩) 1)) =
      pushResult (pushResult (new_stack 0 0 none : Stack Nat) (Cell.live ⟨0, 1⟩) 0)
        (Cell.live ⟨0, 2⟩) 1 :=
  ⟨by decide,
    (claim_C4 (pushResult (pushResult (new_stack 0 0 none : Stack Nat) (Cell.live ⟨0, 1⟩) 0)
      (Cell.live ⟨0, 2⟩) 1) (by decide)).2.2.2.2.2.2⟩

/-! ### Buffer-invariant preservation and non-interference (claim C9) -/

theorem popResult_copyId (s : Stack α) : (popResult s).copyId = s.copyId := rfl

theorem popResult_freeId (s : Stack α) : (popResult s).freeId = s.freeId := rfl

theorem wf_grow {s : Stack α} {ctr : Nat} (hwf : WF s ctr) : WF (grow s) ctr := by
  obtain ⟨hlen, hsz, hall, hnd⟩ := hwf
  refine ⟨grow_length s hlen, ?_, ?_, ?_⟩
  · rw [grow_size]
    exact Nat.le_trans hsz (grow_capacity_le s)
  · rw [grow_liveCells s (by omega) hlen]
    exact hall
  · rw [grow_liveCells s (by omega) hlen]
    exact hnd

theorem wf_clear {s : Stack α} {ctr : Nat} (hwf : WF s ctr) :
    WF ({ s with size := 0 } : Stack α) ctr := by
  obtain ⟨hlen, hsz, -, -⟩ := hwf
  exact ⟨hlen, Nat.zero_le _, rfl, List.nodup_nil⟩

theorem cellAddrs_reverse :
    ∀ l : List (Cell α), cellAddrs l.reverse = (cellAddrs l).reverse
  | [] => rfl
  | c :: rest => by
    rw [List.reverse_cons, cellAddrs_append, cellAddrs_reverse rest]
    cases c <;> simp [cellAddrs]

theorem wf_reverse {s : Stack α} {ctr : Nat} (hwf : WF s ctr) : WF (reverse s) ctr := by
  obtain ⟨hlen, hsz, hall, hnd⟩ := hwf
  have hszlen : s.size ≤ s.data.length := by omega
  refine ⟨?_, ?_, ?_, ?_⟩
  · rw [reverse_length hszlen, reverse_capacity, hlen]
  · rw [reverse_size, reverse_capacity]
    exact hsz
  · rw [reverse_liveCells hszlen]
    rw [List.all_eq_true] at hall ⊢
    exact fun c hc => hall c (List.mem_reverse.mp hc)
  · rw [reverse_liveCells hszlen, cellAddrs_reverse]
    exact List.nodup_reverse.mpr hnd

theorem popResult_vacated_null {s : Stack α} (hlt : s.size - 1 < s.data.length) :
    (popResult s).data.getD (s.size - 1) Cell.uninit = Cell.null :=
  getD_set_self hlt Cell.null Cell.uninit

/-- Two stacks agree on everything an operation may legitimately look
at: the counters, the operation functions, the buffer length, and the
live slots `[0, size)` — but not necessarily on the slots `[size,
capacity)`. -/
def SameLive (s t : Stack α) : Prop :=
  s.size = t.size ∧ s.capacity = t.capacity ∧ s.data.length = t.data.length ∧
  liveCells s = liveCells t ∧ s.copyId = t.copyId ∧ s.freeId = t.freeId ∧ s.cmp = t.cmp

/-- `SameLive` lifted to possibly-NULL handles. -/
def SameLiveO : Option (Stack α) → Option (Stack α) → Prop
  | none, none => True
  | some s, some t => SameLive s t
  | _, _ => False

theorem sameLive_getD {s t : Stack α} (hst : SameLive s t) {i : Nat} (hi : i < s.size) :
    s.data.getD i Cell.uninit = t.data.getD i Cell.uninit := by
  have hs := hst.1
  have h1 := @getD_take_of_lt (Cell α) s.data s.size i hi Cell.uninit
  have h2 := @getD_take_of_lt (Cell α) t.data t.size i (by omega) Cell.uninit
  rw [← h1, ← h2]
  show (liveCells s).getD i Cell.uninit = (liveCells t).getD i Cell.uninit
  rw [hst.2.2.2.1]

theorem peek_sameLive {s t : Stack α} (hst : SameLive s t) :
    peek (some s) = peek (some t) := by
  obtain ⟨hs, hc, hl, hlc, -, -, -⟩ := id hst
  show (if s.size = 0 then Cell.null else s.data.getD (s.size - 1) Cell.uninit) =
    (if t.size = 0 then Cell.null else t.data.getD (t.size - 1) Cell.uninit)
  by_cases h0 : s.size = 0
  · rw [if_pos h0, if_pos (by omega)]
  · rw [if_neg h0, if_neg (by omega), ← hs]
    exact sameLive_getD hst (by omega)

theorem pop_sameLive {s t : Stack α} (hst : SameLive s t) :
    (pop (some s)).2 = (pop (some t)).2 ∧ SameLiveO (pop (some s)).1 (pop (some t)).1 := by
  have hs := hst.1
  by_cases h0 : s.size = 0
  · rw [pop_some_zero h0, pop_some_zero (by omega)]
    exact ⟨rfl, hst⟩
  · rw [pop_some_pos h0, pop_some_pos (by omega)]
    obtain ⟨h1, h2, h3, h4, h5, h6, h7⟩ := id hst
    constructor
    · show s.data.getD (s.size - 1) Cell.uninit = t.data.getD (t.size - 1) Cell.uninit
      rw [← h1]
      exact sameLive_getD hst (by omega)
    · show SameLive (popResult s) (popResult t)
      have hlc : liveCells (popResult s) = liveCells (popResult t) := by
        rw [popResult_liveCells, popResult_liveCells,
          ← take_take_of_le (Nat.sub_le s.size 1) s.data,
          ← take_take_of_le (Nat.sub_le t.size 1) t.data]
        show (liveCells s).take (s.size - 1) = (liveCells t).take (t.size - 1)
        rw [h4, h1]
      exact ⟨by rw [popResult_size, popResult_size, h1],
        by rw [popResult_capacity, popResult_capacity, h2],
        by rw [popResult_length, popResult_length, h3], hlc, h5, h6, h7⟩

theorem push_sameLive {s t : Stack α} (hst : SameLive s t) (hlen : s.data.length = s.capacity)
    (hsz : s.size ≤ s.capacity) (c : Cell α) (ctr : Nat) :
    (push (some s) c ctr).2 = (push (some t) c ctr).2 ∧
    SameLiveO (push (some s) c ctr).1 (push (some t) c ctr).1 := by
  obtain ⟨h1, h2, h3, h4, h5, h6, h7⟩ := id hst
  have hlent : t.data.length = t.capacity := by omega
  have hszt : t.size ≤ t.capacity := by omega
  rw [push_some, push_some]
  refine ⟨rfl, ?_⟩
  show SameLive (pushResult s c ctr) (pushResult t c ctr)
  refine ⟨?_, ?_, ?_, ?_, ?_, ?_, ?_⟩
  · rw [pushResult_size, pushResult_size, h1]
  · rw [pushResult_capacity, pushResult_capacity, h1, h2]
  · rw [pushResult_length s c ctr hlen, pushResult_length t c ctr hlent,
      pushResult_capacity, pushResult_capacity, h1, h2]
  · rw [pushResult_liveCells s c ctr hlen hsz, pushResult_liveCells t c ctr hlent hszt, h4]
  · rw [pushResult_copyId, pushResult_copyId, h5]
  · rw [pushResult_freeId, pushResult_freeId, h6]
  · rw [pushResult_cmp, pushResult_cmp, h7]

theorem clear_sameLive {s t : Stack α} (hst : SameLive s t)
    (hszlen : s.size ≤ s.data.length) :
    (clear (some s)).2 = (clear (some t)).2 ∧
    SameLiveO (clear (some s)).1 (clear (some t)).1 := by
  obtain ⟨h1, h2, h3, h4, h5, h6, h7⟩ := id hst
  rw [clear_some, clear_some]
  constructor
  · show freedArgs s.data (List.range s.size) = freedArgs t.data (List.range t.size)
    rw [freedArgs_range s.size s.data hszlen, freedArgs_range t.size t.data (by omega)]
    exact h4
  · show SameLive ({ s with size := 0 } : Stack α) ({ t with size := 0 } : Stack α)
    exact ⟨rfl, h2, h3, rfl, h5, h6, h7⟩

theorem containsLoop_congr (cmp : Option (α → α → Int)) (x : α) :
    ∀ (idx : List Nat) (d1 d2 : List (Cell α)),
      (∀ i ∈ idx, d1.getD i Cell.uninit = d2.getD i Cell.uninit) →
      containsLoop cmp d1 x idx = containsLoop cmp d2 x idx
  | [], _, _, _ => rfl
  | i :: rest, d1, d2, h => by
    have hi := h i (List.mem_cons_self i rest)
    simp only [containsLoop, hi]
    cases cmp with
    | none => rfl
    | some f =>
      cases d2.getD i Cell.uninit with
      | live e =>
        by_cases hfe : f e.val x = 0
        · simp [hfe]
        · simp only [if_neg hfe]
          exact containsLoop_congr (some f) x rest d1 d2
            (fun j hj => h j (List.mem_cons_of_mem i hj))
      | null => rfl
      | uninit => rfl

theorem contains_sameLive {s t : Stack α} (hst : SameLive s t) (x : α) :
    contains (some s) x = contains (some t) x := by
  show containsLoop s.cmp s.data x (List.range s.size) =
    containsLoop t.cmp t.data x (List.range t.size)
  rw [← hst.1, ← hst.2.2.2.2.2.2]
  exact containsLoop_congr s.cmp x (List.range s.size) s.data t.data
    (fun i hi => sameLive_getD hst (List.mem_range.mp hi))

theorem cloneLoop_congr :
    ∀ (idx : List Nat) (d1 d2 : List (Cell α)) (t : Option (Stack α)) (ctr : Nat),
      (∀ i ∈ idx, d1.getD i Cell.uninit = d2.getD i Cell.uninit) →
      cloneLoop d1 idx t ctr = cloneLoop d2 idx t ctr
  | [], _, _, _, _, _ => rfl
  | i :: rest, d1, d2, t, ctr, h => by
    have hi := h i (List.mem_cons_self i rest)
    simp only [cloneLoop, hi]
    exact cloneLoop_congr rest d1 d2 _ _ (fun j hj => h j (List.mem_cons_of_mem i hj))

theorem clone_sameLive {s t : Stack α} (hst : SameLive s t) (ctr : Nat) :
    clone (some s) ctr = clone (some t) ctr := by
  show cloneLoop s.data (List.range s.size) (some (new_stack s.copyId s.freeId s.cmp)) ctr =
    cloneLoop t.data (List.range t.size) (some (new_stack t.copyId t.freeId t.cmp)) ctr
  rw [← hst.1, ← hst.2.2.2.2.1, ← hst.2.2.2.2.2.1, ← hst.2.2.2.2.2.2]
  exact cloneLoop_congr (List.range s.size) s.data t.data _ ctr
    (fun i hi => sameLive_getD hst (List.mem_range.mp hi))

theorem copyRange_congr :
    ∀ (idx : List Nat) (d1 d2 : List (Cell α)) (ctr : Nat),
      (∀ i ∈ idx, d1.getD i Cell.uninit = d2.getD i Cell.uninit) →
      copyRange d1 idx ctr = copyRange d2 idx ctr
  | [], _, _, _, _ => rfl
  | i :: rest, d1, d2, ctr, h => by
    have hi := h i (List.mem_cons_self i rest)
    simp only [copyRange, hi]
    rw [copyRange_congr rest d1 d2 _ (fun j hj => h j (List.mem_cons_of_mem i hj))]

theorem to_array_sameLive {s t : Stack α} (hst : SameLive s t) (w : Bool) (ctr : Nat) :
    to_array s w ctr = to_array t w ctr := by
  rw [to_array, to_array, ← hst.1]
  by_cases h0 : s.size = 0
  · rw [if_pos h0, if_pos h0]
  · simp only [if_neg h0]
    rw [copyRange_congr (List.range s.size) s.data t.data ctr
      (fun i hi => sameLive_getD hst (List.mem_range.mp hi))]

theorem reverse_sameLive {s t : Stack α} (hst : SameLive s t)
    (hszlen : s.size ≤ s.data.length) : SameLive (reverse s) (reverse t) := by
  obtain ⟨h1, h2, h3, h4, h5, h6, h7⟩ := id hst
  have hszlent : t.size ≤ t.data.length := by omega
  refine ⟨?_, ?_, ?_, ?_, ?_, ?_, ?_⟩
  · rw [reverse_size, reverse_size, h1]
  · rw [reverse_capacity, reverse_capacity, h2]
  · rw [reverse_length hszlen, reverse_length hszlent, h3]
  · rw [reverse_liveCells hszlen, reverse_liveCells hszlent, h4]
  · rw [reverse_copyId, reverse_copyId, h5]
  · rw [reverse_freeId, reverse_freeId, h6]
  · rw [reverse_cmp, reverse_cmp, h7]

/-- Claim C9.  The buffer invariant — slots `[0, size)` hold live,
non-null owned elements — is established by `new_stack` and preserved
by `grow`, `push`, `pop`, `clear` and `reverse` (the `WF` conjuncts);
slots `[size, capacity)` are unused in the sense that no operation's
observable output or resulting live prefix depends on them (the
`SameLive` non-interference conjuncts, where `s` and `t` agree on
everything except the slots at index `≥ size`), and the one slot the
code explicitly writes back is the slot `pop` vacates, which becomes
null. -/
theorem claim_C9 {s t : Stack α} {ctr : Nat} (hwf : WF s ctr) (hst : SameLive s t)
    (cid fid : Nat) (cf : Option (α → α → Int)) (c : Cell α) (e : Elem α) (x : α)
    (w : Bool) :
    WF (new_stack cid fid cf : Stack α) ctr ∧
    WF (grow s) ctr ∧
    WF (pushResult s (Cell.live e) ctr) (ctr + 1) ∧
    WF (popResult s) ctr ∧
    WF ({ s with size := 0 } : Stack α) ctr ∧
    WF (reverse s) ctr ∧
    (s.size ≠ 0 → (popResult s).data.getD (s.size - 1) Cell.uninit = Cell.null) ∧
    peek (some s) = peek (some t) ∧
    (pop (some s)).2 = (pop (some t)).2 ∧
    SameLiveO (pop (some s)).1 (pop (some t)).1 ∧
    (push (some s) c ctr).2 = (push (some t) c ctr).2 ∧
    SameLiveO (push (some s) c ctr).1 (push (some t) c ctr).1 ∧
    (clear (some s)).2 = (clear (some t)).2 ∧
    SameLiveO (clear (some s)).1 (clear (some t)).1 ∧
    contains (some s) x = contains (some t) x ∧
    clone (some s) ctr = clone (some t) ctr ∧
    to_array s w ctr = to_array t w ctr ∧
    SameLive (reverse s) (reverse t) ∧
    is_empty (some s) = is_empty (some t) ∧
    size (some s) = size (some t) ∧
    capacity (some s) = capacity (some t) := by
  have hlen := hwf.1
  have hsz := hwf.2.1
  have hszlen : s.size ≤ s.data.length := by omega
  obtain ⟨hp1, hp2⟩ := pop_sameLive hst
  obtain ⟨hu1, hu2⟩ := push_sameLive hst hlen hsz c ctr
  obtain ⟨hc1, hc2⟩ := clear_sameLive hst hszlen
  refine ⟨wf_new_stack cid fid cf ctr, wf_grow hwf, wf_pushResult hwf e, wf_popResult hwf,
    wf_clear hwf, wf_reverse hwf, fun h0 => popResult_vacated_null (by omega),
    peek_sameLive hst, hp1, hp2, hu1, hu2, hc1, hc2, contains_sameLive hst x,
    clone_sameLive hst ctr, to_array_sameLive hst w ctr, reverse_sameLive hst hszlen,
    ?_, ?_, ?_⟩
  · show (s.size == 0) = (t.size == 0)
    rw [hst.1]
  · exact hst.1
  · exact hst.2.1

/-- Witness for C9: a concrete well-formed one-element stack `s` and a
stack `t` identical except that the seven dead slots are null instead
of uninitialised. -/
theorem claim_C9_witness :
    WF (pushResult (new_stack 0 0 none : Stack Nat) (Cell.live ⟨0, 7⟩) 0) 1 ∧
    SameLive (pushResult (new_stack 0 0 none : Stack Nat) (Cell.live ⟨0, 7⟩) 0)
      (Stack.mk (Cell.live ⟨0, 7⟩ :: List.replicate 7 Cell.null) 1 8 0 0 none) ∧
    peek (some (pushResult (new_stack 0 0 none : Stack Nat) (Cell.live ⟨0, 7⟩) 0)) =
      peek (some (Stack.mk (Cell.live ⟨0, 7⟩ :: List.replicate 7 Cell.null) 1 8 0 0 none)) ∧
    clone (some (pushResult (new_stack 0 0 none : Stack Nat) (Cell.live ⟨0, 7⟩) 0)) 1 =
      clone (some (Stack.mk (Cell.live ⟨0, 7⟩ :: List.replicate 7 Cell.null) 1 8 0 0 none))
        1 := by
  have hwf : WF (pushResult (new_stack 0 0 none : Stack Nat) (Cell.live ⟨0, 7⟩) 0) 1 :=
    wf_pushResult (wf_new_stack 0 0 none 0) ⟨0, 7⟩
  have hst : SameLive (pushResult (new_stack 0 0 none : Stack Nat) (Cell.live ⟨0, 7⟩) 0)
      (Stack.mk (Cell.live ⟨0, 7⟩ :: List.replicate 7 Cell.null) 1 8 0 0 none) :=
    ⟨by decide, by decide, by decide, by decide, by decide, by decide, rfl⟩
  have h := claim_C9 hwf hst 0 0 none Cell.null ⟨0, 0⟩ 0 false
  exact ⟨hwf, hst, h.2.2.2.2.2.2.2.1,
    h.2.2.2.2.2.2.2.2.2.2.2.2.2.2.2.1⟩

end CStack
